import Mathlib

/-!
Shallow embedding of the inverted-index search engine in `src/lib.rs`
(crate `cercami`): stopword list, tokenizer, postings store (`Index`),
`add`, `search` and `intersect_ordered_vecs`, together with proofs about
them.

Rust strings are modelled as lists of characters (`Str := List Char`),
`u32` document ids as `Nat` (ids are small ordinals; no arithmetic is
performed on them), and the `HashMap<String, Vec<u32>>` index as an
association list accessed only through `getPost`/`insertPost`.
The English Snowball stemmer comes from the external `rust_stemmers`
crate, so every definition is parameterised by a `stem` function; a
concrete model of the stemmer on the words used by the spec's scenarios
is given as `stemModel`.
-/

namespace Cercami

/-- Rust `String` / `&str`, modelled as its character sequence. -/
abbrev Str := List Char

/-- The `STOP_WORDS` array of `src/lib.rs` (127 entries, verbatim). -/
def STOP_WORDS : List Str :=
  ["i", "me", "my", "myself", "we", "our", "ours", "ourselves", "you",
   "your", "yours", "yourself", "yourselves", "he", "him", "his",
   "himself", "she", "her", "hers", "herself", "it", "its", "itself",
   "they", "them", "their", "theirs", "themselves", "what", "which",
   "who", "whom", "this", "that", "these", "those", "am", "is", "are",
   "was", "were", "be", "been", "being", "have", "has", "had", "having",
   "do", "does", "did", "doing", "a", "an", "the", "and", "but", "if",
   "or", "because", "as", "until", "while", "of", "at", "by", "for",
   "with", "about", "against", "between", "into", "through", "during",
   "before", "after", "above", "below", "to", "from", "up", "down",
   "in", "out", "on", "off", "over", "under", "again", "further",
   "then", "once", "here", "there", "when", "where", "why", "how",
   "all", "any", "both", "each", "few", "more", "most", "other",
   "some", "such", "no", "nor", "not", "only", "own", "same", "so",
   "than", "too", "very", "s", "t", "can", "will", "just", "don",
   "should", "now"].map String.data

/-- The `Document` struct: id, title, url, abstract text. -/
structure Document where
  id : Nat
  title : Str
  url : Str
  text : Str

/-- The index's `HashMap<String, Vec<u32>>`, as an association list. -/
abbrev IndexMap := List (Str × List Nat)

/-- `HashMap::get`: the value bound to key `k`, if any. -/
def getPost : IndexMap → Str → Option (List Nat)
  | [], _ => none
  | (k', v) :: rest, k => if k' = k then some v else getPost rest k

/-- `HashMap::insert`: bind key `k` to `v`, replacing any existing binding. -/
def insertPost : IndexMap → Str → List Nat → IndexMap
  | [], k, v => [(k, v)]
  | (k', v') :: rest, k, v =>
    if k' = k then (k, v) :: rest else (k', v') :: insertPost rest k v

/-- Rust `str::split_whitespace`, accumulator-based: splits on whitespace
and never emits an empty token.  The accumulator holds the current word
reversed. -/
def splitWSAux : List Char → List Char → List Str
  | [], acc => if acc = [] then [] else [acc.reverse]
  | c :: cs, acc =>
    if c.isWhitespace then
      if acc = [] then splitWSAux cs []
      else acc.reverse :: splitWSAux cs []
    else splitWSAux cs (c :: acc)

/-- `text.split_whitespace()`. -/
def splitWhitespace (t : Str) : List Str := splitWSAux t []

/-- `str::to_lowercase`, character-wise. -/
def lowercase (t : Str) : Str := t.map Char.toLower

/-- `Index::tokenize`: lowercase, split on whitespace, drop stopwords,
stem the survivors. -/
def tokenize (stem : Str → Str) (text : Str) : List Str :=
  (splitWhitespace (lowercase text)).filterMap fun w =>
    if w ∈ STOP_WORDS then none else some (stem w)

/-- Rust's lexicographic `Ord` on slices, as used by `a.cmp(b)` in
`intersect_ordered_vecs` (NB: the Rust code compares the whole slices,
not the cursor elements). -/
def cmpList : List Nat → List Nat → Ordering
  | [], [] => Ordering.eq
  | [], _ :: _ => Ordering.lt
  | _ :: _, [] => Ordering.gt
  | x :: xs, y :: ys =>
    match compare x y with
    | Ordering.eq => cmpList xs ys
    | o => o

/-- The `while i < a.len() && j < b.len()` loop of
`Index::intersect_ordered_vecs`, verbatim: the comparison is
`a.cmp(b)` on the whole slices, `a[i]` is read only under the loop
guard `i < a.len()`. -/
def intersectLoop (a b : List Nat) (i j : Nat) (results : List Nat) :
    List Nat :=
  if h : i < a.length ∧ j < b.length then
    match cmpList a b with
    | Ordering.gt => intersectLoop a b i (j + 1) results
    | Ordering.lt => intersectLoop a b (i + 1) j results
    | Ordering.eq =>
      intersectLoop a b (i + 1) (j + 1) (results ++ [a.get ⟨i, h.1⟩])
  else results
termination_by a.length - i + (b.length - j)
decreasing_by
  all_goals omega

/-- `Index::intersect_ordered_vecs` (the `with_capacity` reservation has
no observable effect and is dropped). -/
def intersect_ordered_vecs (a b : List Nat) : List Nat :=
  intersectLoop a b 0 0 []

/-- The `for token in tokens` loop of `Index::search`: `results` starts
empty; a missing token returns `[]` at once; a present token's postings
either initialise `results` (when its length is `0`) or are intersected
into it. -/
def searchLoop (m : IndexMap) : List Str → List Nat → List Nat
  | [], results => results
  | tok :: toks, results =>
    match getPost m tok with
    | some indexes =>
      searchLoop m toks
        (match results.length with
         | 0 => indexes
         | _ + 1 => intersect_ordered_vecs results indexes)
    | none => []

/-- `Index::search`. -/
def search (stem : Str → Str) (m : IndexMap) (query : Str) : List Nat :=
  searchLoop m (tokenize stem query) []

/-- The `for token in tokens` loop of `Index::add`: look the token up,
keep the list if the id is already present, append it otherwise, start a
fresh singleton if the token is new, and re-insert. -/
def addLoop (id : Nat) : IndexMap → List Str → IndexMap
  | m, [] => m
  | m, tok :: toks =>
    let docsContainingToken :=
      match getPost m tok with
      | some existing =>
        if id ∈ existing then existing else existing ++ [id]
      | none => [id]
    addLoop id (insertPost m tok docsContainingToken) toks

/-- `Index::add`. -/
def add (stem : Str → Str) (m : IndexMap) (doc : Document) : IndexMap :=
  addLoop doc.id m (tokenize stem doc.text)

/-- Folding `add` over a document list, as a caller of the public `add`
may do in any order and with any ids. -/
def buildFrom (stem : Str → Str) : IndexMap → List Document → IndexMap
  | m, [] => m
  | m, d :: ds => buildFrom stem (add stem m d) ds

/-- The `for (idx, doc) in docs.doc.iter().enumerate()` loop of
`Index::new`: ids are assigned as zero-based corpus positions. -/
def newLoop (stem : Str → Str) :
    Nat → IndexMap → List (Str × Str × Str) → IndexMap
  | _, m, [] => m
  | idx, m, (title, url, text) :: rest =>
    newLoop stem (idx + 1) (add stem m ⟨idx, title, url, text⟩) rest

/-- `Index::new`, starting from the corpus records (title, url, text)
already parsed by the external XML reader. -/
def indexNew (stem : Str → Str) (docs : List (Str × Str × Str)) :
    IndexMap :=
  newLoop stem 0 [] docs

/-- Modelled from the spec: the English Snowball stemmer supplied by the
external `rust_stemmers` crate, restricted to the words occurring in the
spec's end-to-end scenarios ("runs" stems to "run", "jumps" to "jump";
"quick", "brown", "fox", "dog", "elephant", "cat" are their own stems). -/
def stemModel (w : Str) : Str :=
  if w = "runs".data then "run".data
  else if w = "jumps".data then "jump".data
  else w

/-- Derived form of `intersect_ordered_vecs` (see `intersect_eq` below):
because the Rust loop compares the whole slices, the result is `a` when
the two inputs are equal and `[]` otherwise.  Used to evaluate `search`
on concrete inputs, since the well-founded `intersectLoop` does not
reduce definitionally. -/
def listIntersectIf (a b : List Nat) : List Nat := if a = b then a else []

/-- `searchLoop` with each intersection replaced by its characterisation
`listIntersectIf`; proved equal to `searchLoop` in `searchLoop_eq_if`. -/
def searchLoopIf (m : IndexMap) : List Str → List Nat → List Nat
  | [], results => results
  | tok :: toks, results =>
    match getPost m tok with
    | some indexes =>
      searchLoopIf m toks
        (match results.length with
         | 0 => indexes
         | _ + 1 => listIntersectIf results indexes)
    | none => []

/-- Modelled from the spec: the intended two-cursor sorted-merge
intersection — compare the **current elements**, emit on equality,
advance the cursor holding the smaller element, stop when either input
is exhausted. -/
def mergeIntersect : List Nat → List Nat → List Nat
  | [], _ => []
  | _ :: _, [] => []
  | x :: xs, y :: ys =>
    if x = y then x :: mergeIntersect xs ys
    else if x < y then mergeIntersect xs (y :: ys)
    else mergeIntersect (x :: xs) ys
termination_by a b => a.length + b.length

/-- `intersectLoop` with the `a[i]` access modelled fallibly: an
out-of-bounds read (a Rust panic) becomes `Except.error`.  Used to show
the panic branch is unreachable (`searchE_ok`). -/
def intersectLoopE (a b : List Nat) (i j : Nat) (results : List Nat) :
    Except String (List Nat) :=
  if i < a.length ∧ j < b.length then
    match cmpList a b with
    | Ordering.gt => intersectLoopE a b i (j + 1) results
    | Ordering.lt => intersectLoopE a b (i + 1) j results
    | Ordering.eq =>
      match a.get? i with
      | some x => intersectLoopE a b (i + 1) (j + 1) (results ++ [x])
      | none => Except.error "index out of bounds"
  else Except.ok results
termination_by a.length - i + (b.length - j)
decreasing_by
  all_goals omega

/-- Fallible `intersect_ordered_vecs`. -/
def intersectE (a b : List Nat) : Except String (List Nat) :=
  intersectLoopE a b 0 0 []

/-- `searchLoop` over the fallible intersection, propagating errors. -/
def searchLoopE (m : IndexMap) : List Str → List Nat → Except String (List Nat)
  | [], results => Except.ok results
  | tok :: toks, results =>
    match getPost m tok with
    | some indexes =>
      match results.length with
      | 0 => searchLoopE m toks indexes
      | _ + 1 =>
        match intersectE results indexes with
        | Except.ok r => searchLoopE m toks r
        | Except.error e => Except.error e
    | none => Except.ok []

/-- Fallible `search`. -/
def searchE (stem : Str → Str) (m : IndexMap) (query : Str) :
    Except String (List Nat) :=
  searchLoopE m (tokenize stem query) []

/-- Every postings list stored in `m` is strictly ascending and bounded
above by `n`: the invariant maintained while documents are added with
nondecreasing ids. -/
def BoundedBy (m : IndexMap) (n : Nat) : Prop :=
  ∀ k l, getPost m k = some l →
    l.Chain' (· < ·) ∧ ∀ x ∈ l, x ≤ n

/-- The number of occurrences of `x` in an optional postings list. -/
def countIn (o : Option (List Nat)) (x : Nat) : Nat :=
  (o.getD []).count x

/-! ### Characterising `intersect_ordered_vecs`

The Rust loop compares `a.cmp(b)` — the whole slices — instead of the
cursor elements, and `a` and `b` never change inside the loop, so the
branch taken is the same in every iteration.  Consequently the function
returns `a` when `a = b` and `[]` otherwise. -/

theorem cmpList_self (a : List Nat) : cmpList a a = Ordering.eq := by
  induction a with
  | nil => rfl
  | cons x xs ih => simp [cmpList, compare_eq_iff_eq.mpr rfl, ih]

theorem cmpList_eq_iff (a b : List Nat) :
    cmpList a b = Ordering.eq ↔ a = b := by
  induction a generalizing b with
  | nil => cases b <;> simp [cmpList]
  | cons x xs ih =>
    cases b with
    | nil => simp [cmpList]
    | cons y ys =>
      simp only [cmpList]
      cases h : compare x y with
      | eq =>
        have hxy : x = y := compare_eq_iff_eq.mp h
        subst hxy
        simp [ih ys]
      | lt =>
        have hxy : x < y := compare_lt_iff_lt.mp h
        simp
        intro hx
        omega
      | gt =>
        have hxy : y < x := compare_gt_iff_gt.mp h
        simp
        intro hx
        omega

theorem intersectLoop_lt (a b : List Nat) (hab : cmpList a b = Ordering.lt) :
    ∀ k i j r, a.length - i ≤ k → intersectLoop a b i j r = r := by
  intro k
  induction k with
  | zero =>
    intro i j r hk
    rw [intersectLoop]
    rw [dif_neg]
    omega
  | succ k ih =>
    intro i j r hk
    rw [intersectLoop]
    by_cases hij : i < a.length ∧ j < b.length
    · rw [dif_pos hij, hab]
      exact ih (i + 1) j r (by omega)
    · rw [dif_neg hij]

theorem intersectLoop_gt (a b : List Nat) (hab : cmpList a b = Ordering.gt) :
    ∀ k i j r, b.length - j ≤ k → intersectLoop a b i j r = r := by
  intro k
  induction k with
  | zero =>
    intro i j r hk
    rw [intersectLoop]
    rw [dif_neg]
    omega
  | succ k ih =>
    intro i j r hk
    rw [intersectLoop]
    by_cases hij : i < a.length ∧ j < b.length
    · rw [dif_pos hij, hab]
      exact ih i (j + 1) r (by omega)
    · rw [dif_neg hij]

theorem intersectLoop_self (a : List Nat) :
    ∀ k i r, a.length - i ≤ k → intersectLoop a a i i r = r ++ a.drop i := by
  intro k
  induction k with
  | zero =>
    intro i r hk
    rw [intersectLoop, dif_neg (by omega), List.drop_eq_nil_of_le (by omega),
      List.append_nil]
  | succ k ih =>
    intro i r hk
    by_cases hi : i < a.length
    · rw [intersectLoop, dif_pos ⟨hi, hi⟩, cmpList_self,
        ih (i + 1) (r ++ [a.get ⟨i, hi⟩]) (by omega),
        List.append_assoc, List.get_eq_getElem]
      rw [List.drop_eq_getElem_cons hi]
      rfl
    · rw [intersectLoop, dif_neg (by omega),
        List.drop_eq_nil_of_le (by omega), List.append_nil]

/-- `intersect_ordered_vecs a b` is `a` when `a = b` and `[]` otherwise:
because the loop compares the whole slices, a genuine element-wise merge
never happens. -/
theorem intersect_eq (a b : List Nat) :
    intersect_ordered_vecs a b = if a = b then a else [] := by
  by_cases hab : a = b
  · subst hab
    rw [if_pos rfl]
    simpa using intersectLoop_self a a.length 0 [] (by omega)
  · rw [if_neg hab]
    cases h : cmpList a b with
    | eq => exact absurd ((cmpList_eq_iff a b).mp h) hab
    | lt => exact intersectLoop_lt a b h a.length 0 0 [] (by omega)
    | gt => exact intersectLoop_gt a b h b.length 0 0 [] (by omega)

theorem searchLoop_eq_if (m : IndexMap) :
    ∀ ts r, searchLoop m ts r = searchLoopIf m ts r := by
  intro ts
  induction ts with
  | nil => intro r; rfl
  | cons tok toks ih =>
    intro r
    simp only [searchLoop, searchLoopIf]
    cases getPost m tok with
    | none => rfl
    | some ix =>
      cases r with
      | nil => exact ih ix
      | cons x xs =>
        show searchLoop m toks (intersect_ordered_vecs (x :: xs) ix) =
          searchLoopIf m toks (listIntersectIf (x :: xs) ix)
        rw [intersect_eq, listIntersectIf, ih]

/-- `search` evaluates through the characterised loop. -/
theorem search_eval (stem : Str → Str) (m : IndexMap) (q : Str) :
    search stem m q = searchLoopIf m (tokenize stem q) [] := by
  rw [search, searchLoop_eq_if]

/-- C1: the claim says `intersect_ordered_vecs` implements the
two-cursor sorted-merge intersection of its inputs.  It does not: the
loop compares the whole slices (`a.cmp(b)`) instead of the cursor
elements, so on the strictly-ascending duplicate-free inputs `[0,1]` and
`[0,2]` the code returns `[]` while the sorted-merge intersection
(`mergeIntersect`, modelled from the spec) returns `[0]`. -/
theorem c1_intersect_is_not_merge :
    intersect_ordered_vecs [0, 1] [0, 2] = [] ∧
    mergeIntersect [0, 1] [0, 2] = [0] := by
  constructor
  · rw [intersect_eq]
    decide
  · simp [mergeIntersect]

/-- C2: on the three-document corpus ("The quick brown fox",
"quick dog runs", "brown fox jumps") the postings for "quick", "fox"
and "brown" are `[0,1]`, `[0,2]`, `[0,2]` exactly as the claim states,
but `search "quick fox"` returns `[]`, not the claimed `[0]`, because
the slice-comparison bug makes the intersection of the two distinct
postings lists empty. -/
theorem c2_end_to_end_scenario :
    getPost (indexNew stemModel
      [("".data, "".data, "The quick brown fox".data),
       ("".data, "".data, "quick dog runs".data),
       ("".data, "".data, "brown fox jumps".data)]) "quick".data
        = some [0, 1] ∧
    getPost (indexNew stemModel
      [("".data, "".data, "The quick brown fox".data),
       ("".data, "".data, "quick dog runs".data),
       ("".data, "".data, "brown fox jumps".data)]) "fox".data
        = some [0, 2] ∧
    getPost (indexNew stemModel
      [("".data, "".data, "The quick brown fox".data),
       ("".data, "".data, "quick dog runs".data),
       ("".data, "".data, "brown fox jumps".data)]) "brown".data
        = some [0, 2] ∧
    search stemModel (indexNew stemModel
      [("".data, "".data, "The quick brown fox".data),
       ("".data, "".data, "quick dog runs".data),
       ("".data, "".data, "brown fox jumps".data)]) "quick fox".data
        = [] := by
  refine ⟨by decide, by decide, by decide, ?_⟩
  rw [search_eval]
  decide

/-- C3: the claim says that once the accumulator becomes empty during
the fold, the final result of `search` is empty.  It is not: `search`
uses `results.len() == 0` as its "first token" sentinel, so after the
intersection of `[0]` and `[1]` comes out empty, the third present
token's postings `[2]` replace the accumulator and `search` returns
`[2]` instead of `[]`. -/
theorem c3_empty_accumulator_resurrected :
    intersect_ordered_vecs [0] [1] = [] ∧
    search stemModel
      [("cat".data, [0]), ("dog".data, [1]), ("fox".data, [2])]
      "cat dog fox".data = [2] := by
  constructor
  · rw [intersect_eq]
    decide
  · rw [search_eval]
    decide

/-- C5: over strictly-ascending duplicate-free postings lists,
`intersect_ordered_vecs` is commutative and associative, intersecting a
list with itself gives the list back, and intersecting with the empty
list gives the empty list.  (All four laws hold — the slice-comparison
bug happens to preserve them, since the function degenerates to
"`a` if `a = b`, else `[]`".) -/
theorem c5_intersect_algebra (a b c x : List Nat)
    (ha : a.Chain' (· < ·)) (hb : b.Chain' (· < ·))
    (hc : c.Chain' (· < ·)) (hx : x.Chain' (· < ·)) :
    intersect_ordered_vecs a b = intersect_ordered_vecs b a ∧
    intersect_ordered_vecs (intersect_ordered_vecs a b) c =
      intersect_ordered_vecs a (intersect_ordered_vecs b c) ∧
    intersect_ordered_vecs x x = x ∧
    intersect_ordered_vecs x [] = [] := by
  simp only [intersect_eq]
  refine ⟨?_, ?_, by simp, ?_⟩
  · rcases eq_or_ne a b with rfl | hab
    · rfl
    · rw [if_neg hab, if_neg hab.symm]
  · split_ifs <;> simp_all
  · split_ifs <;> simp_all

/-- Witness for C5 at concrete sorted inputs. -/
theorem c5_intersect_algebra_witness :
    intersect_ordered_vecs [0, 1] [0, 2] = intersect_ordered_vecs [0, 2] [0, 1] ∧
    intersect_ordered_vecs (intersect_ordered_vecs [0, 1] [0, 2]) [1] =
      intersect_ordered_vecs [0, 1] (intersect_ordered_vecs [0, 2] [1]) ∧
    intersect_ordered_vecs [5, 9] [5, 9] = [5, 9] ∧
    intersect_ordered_vecs [5, 9] [] = [] :=
  c5_intersect_algebra [0, 1] [0, 2] [1] [5, 9]
    (by simp [List.chain'_cons]) (by simp [List.chain'_cons])
    (by simp [List.chain'_cons]) (by simp [List.chain'_cons])

theorem searchLoop_absent (m : IndexMap) :
    ∀ ts r tok, tok ∈ ts → getPost m tok = none → searchLoop m ts r = [] := by
  intro ts
  induction ts with
  | nil =>
    intro r tok htok
    exact absurd htok (List.not_mem_nil tok)
  | cons t ts ih =>
    intro r tok htok habs
    simp only [searchLoop]
    cases h : getPost m t with
    | none => rfl
    | some ix =>
      rcases List.mem_cons.mp htok with rfl | hmem
      · rw [habs] at h
        exact absurd h (by simp)
      · exact ih _ tok hmem habs

/-- C7: if any token of the normalized query has no postings list in the
index, `search` returns the empty sequence (strict conjunctive
semantics). -/
theorem c7_absent_term_empty (stem : Str → Str) (m : IndexMap) (q : Str)
    (tok : Str) (htok : tok ∈ tokenize stem q)
    (habs : getPost m tok = none) :
    search stem m q = [] := by
  rw [search]
  exact searchLoop_absent m _ [] tok htok habs

/-- Witness for C7: querying "dog" against an index that only knows
"cat" yields the empty result. -/
theorem c7_absent_term_empty_witness :
    "dog".data ∈ tokenize stemModel "dog".data ∧
    getPost [("cat".data, [0])] "dog".data = none ∧
    search stemModel [("cat".data, [0])] "dog".data = [] :=
  ⟨by decide, by decide,
    c7_absent_term_empty stemModel [("cat".data, [0])] "dog".data
      "dog".data (by decide) (by decide)⟩

/-- C8: if normalization yields zero terms (empty or stopword-only
query), `search` returns the empty sequence, never "all documents". -/
theorem c8_no_terms_empty (stem : Str → Str) (m : IndexMap) (q : Str)
    (h : tokenize stem q = []) :
    search stem m q = [] := by
  rw [search, h]
  rfl

/-- Witness for C8: the stopword-only query "the of" tokenizes to `[]`
and returns the empty result on a nonempty index. -/
theorem c8_no_terms_empty_witness :
    tokenize stemModel "the of".data = [] ∧
    search stemModel [("cat".data, [0])] "the of".data = [] :=
  ⟨by decide,
    c8_no_terms_empty stemModel [("cat".data, [0])] "the of".data (by decide)⟩

theorem intersectLoopE_ok (a b : List Nat) :
    ∀ k i j r, a.length - i + (b.length - j) ≤ k →
      intersectLoopE a b i j r = Except.ok (intersectLoop a b i j r) := by
  intro k
  induction k with
  | zero =>
    intro i j r hk
    have hg : ¬(i < a.length ∧ j < b.length) := by omega
    rw [intersectLoopE, intersectLoop, if_neg hg, dif_neg hg]
  | succ k ih =>
    intro i j r hk
    by_cases hij : i < a.length ∧ j < b.length
    · rw [intersectLoopE, intersectLoop, if_pos hij, dif_pos hij]
      obtain ⟨hi, hj⟩ := hij
      cases cmpList a b with
      | gt => exact ih i (j + 1) r (by omega)
      | lt => exact ih (i + 1) j r (by omega)
      | eq =>
        rw [List.get?_eq_get hi]
        exact ih (i + 1) (j + 1) (r ++ [a.get ⟨i, hi⟩]) (by omega)
    · rw [intersectLoopE, intersectLoop, if_neg hij, dif_neg hij]

theorem intersectE_ok (a b : List Nat) :
    intersectE a b = Except.ok (intersect_ordered_vecs a b) :=
  intersectLoopE_ok a b (a.length + b.length) 0 0 [] (by omega)

theorem searchLoopE_ok (m : IndexMap) :
    ∀ ts r, searchLoopE m ts r = Except.ok (searchLoop m ts r) := by
  intro ts
  induction ts with
  | nil => intro r; rfl
  | cons tok toks ih =>
    intro r
    simp only [searchLoopE, searchLoop]
    cases getPost m tok with
    | none => rfl
    | some ix =>
      cases r with
      | nil => exact ih ix
      | cons x xs =>
        show (match intersectE (x :: xs) ix with
              | Except.ok r => searchLoopE m toks r
              | Except.error e => Except.error e) =
          Except.ok (searchLoop m toks (intersect_ordered_vecs (x :: xs) ix))
        rw [intersectE_ok]
        exact ih _

/-- C9: `search` is total and never fails — every slice access in
`search` and `intersect_ordered_vecs` sits under the loop guard, so the
fallible embedding (out-of-bounds reads give `Except.error`) always
returns `Except.ok` of the plain result; absent terms and empty token
sequences give a normal empty result. -/
theorem c9_search_total (stem : Str → Str) (m : IndexMap) (q : Str)
    (a b : List Nat) :
    searchE stem m q = Except.ok (search stem m q) ∧
    intersectE a b = Except.ok (intersect_ordered_vecs a b) :=
  ⟨searchLoopE_ok m (tokenize stem q) [], intersectE_ok a b⟩

/-! ### Association-list and `add` lemmas -/

theorem getPost_insertPost (m : IndexMap) (k k' : Str) (v : List Nat) :
    getPost (insertPost m k v) k' = if k = k' then some v else getPost m k' := by
  induction m with
  | nil =>
    by_cases h : k = k' <;> simp [insertPost, getPost, h]
  | cons p rest ih =>
    obtain ⟨k0, v0⟩ := p
    by_cases h0 : k0 = k
    · subst h0
      by_cases h1 : k0 = k' <;> simp [insertPost, getPost, h1]
    · by_cases h1 : k0 = k'
      · subst h1
        have hne : k ≠ k0 := fun h => h0 h.symm
        simp [insertPost, getPost, h0, hne, ih]
      · simp [insertPost, getPost, h0, h1, ih]

theorem insertPost_same (m : IndexMap) (k : Str) (v : List Nat)
    (h : getPost m k = some v) : insertPost m k v = m := by
  induction m with
  | nil => simp [getPost] at h
  | cons p rest ih =>
    obtain ⟨k0, v0⟩ := p
    simp only [getPost] at h
    simp only [insertPost]
    by_cases h0 : k0 = k
    · rw [if_pos h0]
      rw [if_pos h0] at h
      obtain rfl : v0 = v := by injection h
      rw [h0]
    · rw [if_neg h0]
      rw [if_neg h0] at h
      rw [ih h]

theorem addLoop_sub (id : Nat) :
    ∀ ts m k l, getPost m k = some l →
      ∃ l', getPost (addLoop id m ts) k = some l' ∧ l ⊆ l' := by
  intro ts
  induction ts with
  | nil =>
    intro m k l h
    exact ⟨l, h, List.Subset.refl l⟩
  | cons tok toks ih =>
    intro m k l h
    by_cases hk : tok = k
    · subst hk
      by_cases hid : id ∈ l
      · simp only [addLoop, h, if_pos hid]
        exact ih _ tok l (by rw [getPost_insertPost, if_pos rfl])
      · simp only [addLoop, h, if_neg hid]
        obtain ⟨l', hget, hsub⟩ :=
          ih (insertPost m tok (l ++ [id])) tok (l ++ [id])
            (by rw [getPost_insertPost, if_pos rfl])
        exact ⟨l', hget, fun x hx => hsub (List.mem_append_left _ hx)⟩
    · simp only [addLoop]
      exact ih _ k l (by rw [getPost_insertPost, if_neg hk, h])

theorem addLoop_mem (id : Nat) :
    ∀ ts m tok, tok ∈ ts →
      ∃ l, getPost (addLoop id m ts) tok = some l ∧ id ∈ l := by
  intro ts
  induction ts with
  | nil =>
    intro m tok htok
    exact absurd htok (List.not_mem_nil tok)
  | cons t toks ih =>
    intro m tok htok
    rcases List.mem_cons.mp htok with rfl | hmem
    · cases hget : getPost m tok with
      | none =>
        simp only [addLoop, hget]
        obtain ⟨l', h', hsub⟩ := addLoop_sub id toks
          (insertPost m tok [id]) tok [id]
          (by rw [getPost_insertPost, if_pos rfl])
        exact ⟨l', h', hsub (by simp)⟩
      | some ex =>
        by_cases hid : id ∈ ex
        · simp only [addLoop, hget, if_pos hid]
          obtain ⟨l', h', hsub⟩ := addLoop_sub id toks
            (insertPost m tok ex) tok ex
            (by rw [getPost_insertPost, if_pos rfl])
          exact ⟨l', h', hsub hid⟩
        · simp only [addLoop, hget, if_neg hid]
          obtain ⟨l', h', hsub⟩ := addLoop_sub id toks
            (insertPost m tok (ex ++ [id])) tok (ex ++ [id])
            (by rw [getPost_insertPost, if_pos rfl])
          exact ⟨l', h', hsub (by simp)⟩
    · simp only [addLoop]
      exact ih _ tok hmem

theorem addLoop_none (id : Nat) :
    ∀ ts m k, k ∉ ts → getPost m k = none →
      getPost (addLoop id m ts) k = none := by
  intro ts
  induction ts with
  | nil =>
    intro m k _ h
    exact h
  | cons t toks ih =>
    intro m k hk h
    simp only [addLoop]
    refine ih _ k (fun hmem => hk (List.mem_cons_of_mem t hmem)) ?_
    have hne : t ≠ k := fun ht => hk (by rw [← ht]; exact List.mem_cons_self t toks)
    rw [getPost_insertPost, if_neg hne, h]

theorem boundedBy_mono (m : IndexMap) (n n' : Nat) (h : BoundedBy m n)
    (hle : n ≤ n') : BoundedBy m n' := by
  intro k l hget
  obtain ⟨hchain, hbound⟩ := h k l hget
  exact ⟨hchain, fun x hx => le_trans (hbound x hx) hle⟩

theorem addLoop_bounded (id : Nat) :
    ∀ ts m, BoundedBy m id → BoundedBy (addLoop id m ts) id := by
  intro ts
  induction ts with
  | nil => intro m h; exact h
  | cons tok toks ih =>
    intro m h
    simp only [addLoop]
    apply ih
    intro k l hget
    rw [getPost_insertPost] at hget
    by_cases hk : tok = k
    · rw [if_pos hk] at hget
      obtain rfl : _ = l := by injection hget
      cases hex : getPost m tok with
      | none =>
        simp only [hex]
        exact ⟨by simp, by simp⟩
      | some ex =>
        obtain ⟨hchain, hbound⟩ := h tok ex hex
        simp only [hex]
        by_cases hid : id ∈ ex
        · rw [if_pos hid]
          exact ⟨hchain, hbound⟩
        · rw [if_neg hid]
          constructor
          · rw [List.chain'_append]
            refine ⟨hchain, by simp, ?_⟩
            intro x hx y hy
            simp only [List.head?_cons, Option.mem_def, Option.some.injEq] at hy
            subst hy
            have hxmem : x ∈ ex := List.mem_of_getLast?_eq_some hx
            have hxle : x ≤ id := hbound x hxmem
            have hxne : x ≠ id := fun hxe => hid (hxe ▸ hxmem)
            omega
          · intro x hx
            rcases List.mem_append.mp hx with hx1 | hx2
            · exact hbound x hx1
            · simp only [List.mem_singleton] at hx2
              omega
    · rw [if_neg hk] at hget
      exact h k l hget

theorem buildFrom_bounded (stem : Str → Str) :
    ∀ docs m n, BoundedBy m n →
      List.Chain' (· ≤ ·) (n :: docs.map Document.id) →
      ∃ n', BoundedBy (buildFrom stem m docs) n' := by
  intro docs
  induction docs with
  | nil =>
    intro m n h _
    exact ⟨n, h⟩
  | cons d ds ih =>
    intro m n h hchain
    simp only [List.map_cons] at hchain
    rw [List.chain'_cons] at hchain
    obtain ⟨hnd, hchain'⟩ := hchain
    simp only [buildFrom]
    exact ih (add stem m d) d.id
      (addLoop_bounded d.id _ m (boundedBy_mono m n d.id h hnd)) hchain'

theorem buildFrom_sub (stem : Str → Str) :
    ∀ docs m k l, getPost m k = some l →
      ∃ l', getPost (buildFrom stem m docs) k = some l' ∧ l ⊆ l' := by
  intro docs
  induction docs with
  | nil =>
    intro m k l h
    exact ⟨l, h, List.Subset.refl l⟩
  | cons d ds ih =>
    intro m k l h
    simp only [buildFrom]
    obtain ⟨l1, h1, hsub1⟩ := addLoop_sub d.id (tokenize stem d.text) m k l h
    obtain ⟨l2, h2, hsub2⟩ := ih (add stem m d) k l1 h1
    exact ⟨l2, h2, fun x hx => hsub2 (hsub1 hx)⟩

theorem buildFrom_mem (stem : Str → Str) :
    ∀ docs m, ∀ d ∈ docs, ∀ tok ∈ tokenize stem d.text,
      ∃ l, getPost (buildFrom stem m docs) tok = some l ∧ d.id ∈ l := by
  intro docs
  induction docs with
  | nil =>
    intro m d hd
    exact absurd hd (List.not_mem_nil d)
  | cons d0 ds ih =>
    intro m d hd tok htok
    rcases List.mem_cons.mp hd with rfl | hmem
    · simp only [buildFrom]
      obtain ⟨l1, h1, hid1⟩ := addLoop_mem d.id (tokenize stem d.text) m tok htok
      obtain ⟨l2, h2, hsub⟩ := buildFrom_sub stem ds (add stem m d) tok l1 h1
      exact ⟨l2, h2, hsub hid1⟩
    · simp only [buildFrom]
      exact ih (add stem m d0) d hmem tok htok

/-- C4 fails as stated ("after **any** sequence of `add` calls"): `add`
appends the id at the end of the postings list, so adding document id 1
and then document id 0 with the same text leaves the postings for "fox"
as `[1, 0]`, which is not strictly ascending. -/
theorem c4_counterexample :
    getPost (add stemModel (add stemModel []
        ⟨1, "".data, "".data, "fox".data⟩)
        ⟨0, "".data, "".data, "fox".data⟩) "fox".data = some [1, 0] ∧
    ¬ ([1, 0] : List Nat).Chain' (· < ·) := by
  constructor
  · decide
  · simp [List.chain'_cons]

/-- C4 (amended): after any sequence of `add(document)` calls **whose
ids are nondecreasing** (as in `Index::new`, which assigns ids in corpus
order), every postings list stored in the index is strictly ascending
with no duplicates, and each produced term's postings list contains the
document's id exactly once. -/
theorem c4_add_preserves_order (stem : Str → Str) (docs : List Document)
    (hids : List.Chain' (· ≤ ·) (docs.map Document.id)) :
    (∀ k l, getPost (buildFrom stem [] docs) k = some l →
      l.Chain' (· < ·) ∧ l.Nodup) ∧
    ∀ d ∈ docs, ∀ tok ∈ tokenize stem d.text,
      ∃ l, getPost (buildFrom stem [] docs) tok = some l ∧
        l.count d.id = 1 := by
  have hb0 : BoundedBy [] 0 := by
    intro k l hget
    simp [getPost] at hget
  have hchain : List.Chain' (· ≤ ·) (0 :: docs.map Document.id) :=
    List.chain'_cons'.mpr ⟨fun b _ => Nat.zero_le b, hids⟩
  obtain ⟨n', hbn⟩ := buildFrom_bounded stem docs [] 0 hb0 hchain
  have hsorted : ∀ k l, getPost (buildFrom stem [] docs) k = some l →
      l.Chain' (· < ·) ∧ l.Nodup := by
    intro k l hget
    obtain ⟨hchain', _⟩ := hbn k l hget
    refine ⟨hchain', ?_⟩
    have hpw : l.Pairwise (· < ·) := List.chain'_iff_pairwise.mp hchain'
    exact hpw.imp ne_of_lt
  refine ⟨hsorted, ?_⟩
  intro d hd tok htok
  obtain ⟨l, hget, hid⟩ := buildFrom_mem stem docs [] d hd tok htok
  obtain ⟨_, hnodup⟩ := hsorted tok l hget
  exact ⟨l, hget, List.count_eq_one_of_mem hnodup hid⟩

/-- Witness for C4 (amended): two documents with ids 0 and 1 added in
order; the resulting index satisfies both conclusions. -/
theorem c4_add_preserves_order_witness :
    (∀ k l, getPost (buildFrom stemModel []
        [⟨0, "".data, "".data, "fox".data⟩,
         ⟨1, "".data, "".data, "fox dog".data⟩]) k = some l →
      l.Chain' (· < ·) ∧ l.Nodup) ∧
    ∀ d ∈ [(⟨0, "".data, "".data, "fox".data⟩ : Document),
           ⟨1, "".data, "".data, "fox dog".data⟩],
      ∀ tok ∈ tokenize stemModel d.text,
        ∃ l, getPost (buildFrom stemModel []
          [⟨0, "".data, "".data, "fox".data⟩,
           ⟨1, "".data, "".data, "fox dog".data⟩]) tok = some l ∧
          l.count d.id = 1 :=
  c4_add_preserves_order stemModel
    [⟨0, "".data, "".data, "fox".data⟩,
     ⟨1, "".data, "".data, "fox dog".data⟩]
    (by simp [List.chain'_cons])

theorem addLoop_noop (id : Nat) :
    ∀ ts m, (∀ tok ∈ ts, ∃ l, getPost m tok = some l ∧ id ∈ l) →
      addLoop id m ts = m := by
  intro ts
  induction ts with
  | nil => intro m _; rfl
  | cons t toks ih =>
    intro m h
    obtain ⟨l, hget, hid⟩ := h t (List.mem_cons_self t toks)
    simp only [addLoop, hget, if_pos hid, insertPost_same m t l hget]
    exact ih m fun tok htok => h tok (List.mem_cons_of_mem t htok)

theorem add_idem (stem : Str → Str) (s : IndexMap) (d : Document) :
    add stem (add stem s d) d = add stem s d := by
  rw [add, add]
  exact addLoop_noop d.id (tokenize stem d.text) _
    fun tok htok => addLoop_mem d.id (tokenize stem d.text) s tok htok

theorem addLoop_count_le (id : Nat) :
    ∀ ts m, (∀ k, countIn (getPost m k) id ≤ 1) →
      ∀ k, countIn (getPost (addLoop id m ts) k) id ≤ 1 := by
  intro ts
  induction ts with
  | nil => intro m h; exact h
  | cons tok toks ih =>
    intro m h
    simp only [addLoop]
    apply ih
    intro k
    rw [getPost_insertPost]
    by_cases hk : tok = k
    · rw [if_pos hk]
      cases hex : getPost m tok with
      | none => simp [countIn]
      | some ex =>
        have hx := h tok
        rw [hex] at hx
        simp only [countIn, Option.getD_some] at hx ⊢
        by_cases hid : id ∈ ex
        · rw [if_pos hid]
          exact hx
        · rw [if_neg hid]
          rw [List.count_append, List.count_eq_zero.mpr hid]
          simp
    · rw [if_neg hk]
      exact h k

/-- C6: `add` is idempotent per (document id, term): re-adding the same
document leaves the whole index unchanged (the `contains` check refuses
the duplicate), and if the id occurred at most once in every postings
list before, it still occurs at most once in every postings list after
both calls. -/
theorem c6_add_idempotent (stem : Str → Str) (s : IndexMap) (d : Document)
    (h : ∀ k, countIn (getPost s k) d.id ≤ 1) :
    add stem (add stem s d) d = add stem s d ∧
    ∀ k, countIn (getPost (add stem (add stem s d) d) k) d.id ≤ 1 := by
  refine ⟨add_idem stem s d, ?_⟩
  rw [add_idem stem s d, add]
  exact addLoop_count_le d.id (tokenize stem d.text) s h

/-- Witness for C6: re-adding document 0 to the empty index changes
nothing and leaves its id at most once everywhere. -/
theorem c6_add_idempotent_witness :
    add stemModel (add stemModel [] ⟨0, "".data, "".data, "fox".data⟩)
        ⟨0, "".data, "".data, "fox".data⟩ =
      add stemModel [] ⟨0, "".data, "".data, "fox".data⟩ ∧
    ∀ k, countIn (getPost (add stemModel
        (add stemModel [] ⟨0, "".data, "".data, "fox".data⟩)
        ⟨0, "".data, "".data, "fox".data⟩) k) 0 ≤ 1 :=
  c6_add_idempotent stemModel [] ⟨0, "".data, "".data, "fox".data⟩
    (fun k => by simp [countIn, getPost])

/-! ### Tokenizer lemmas -/

theorem isUpper_false_of_gt (d : Char) (hd : 90 < d.toNat) :
    d.isUpper = false := by
  unfold Char.isUpper
  have h90 : ¬ (d.val ≤ 90) := by
    rw [UInt32.le_def, BitVec.le_def]
    have hlit : (UInt32.toBitVec 90).toNat = 90 := rfl
    simp only [Char.toNat, UInt32.toNat] at hd
    omega
  simp [h90]

theorem isUpper_false_of_lt (d : Char) (hd : d.toNat < 65) :
    d.isUpper = false := by
  unfold Char.isUpper
  have h65 : ¬ (65 ≤ d.val) := by
    rw [UInt32.le_def, BitVec.le_def]
    have hlit : (UInt32.toBitVec 65).toNat = 65 := rfl
    simp only [Char.toNat, UInt32.toNat] at hd
    omega
  simp [h65]

/-- Lowercasing never produces an uppercase ASCII letter. -/
theorem toLower_not_upper (c : Char) : (Char.toLower c).isUpper = false := by
  unfold Char.toLower
  simp only []
  by_cases h : c.toNat ≥ 65 ∧ c.toNat ≤ 90
  · rw [if_pos h]
    apply isUpper_false_of_gt
    have hvalid : (c.toNat + 32).isValidChar := Or.inl (by omega)
    have hv : (Char.ofNat (c.toNat + 32)).toNat = c.toNat + 32 := by
      rw [Char.ofNat, dif_pos hvalid]
      rfl
    omega
  · rw [if_neg h]
    rcases Nat.lt_or_ge c.toNat 65 with h1 | h2
    · exact isUpper_false_of_lt c h1
    · exact isUpper_false_of_gt c (by omega)

theorem splitWSAux_sound (P : Char → Prop) :
    ∀ cs acc, (∀ c ∈ acc, P c) → (∀ c ∈ cs, P c) →
      ∀ w ∈ splitWSAux cs acc, w ≠ [] ∧ ∀ c ∈ w, P c := by
  intro cs
  induction cs with
  | nil =>
    intro acc hacc _ w hw
    simp only [splitWSAux] at hw
    split at hw
    · exact absurd hw (List.not_mem_nil w)
    · next hne =>
      simp only [List.mem_singleton] at hw
      subst hw
      exact ⟨by simpa using hne, fun c hc => hacc c (List.mem_reverse.mp hc)⟩
  | cons c0 cs ih =>
    intro acc hacc hcs w hw
    simp only [splitWSAux] at hw
    split at hw
    · split at hw
      · exact ih [] (by simp) (fun c hc => hcs c (List.mem_cons_of_mem _ hc)) w hw
      · next hne =>
        rcases List.mem_cons.mp hw with rfl | hw'
        · exact ⟨by simpa using hne, fun c hc => hacc c (List.mem_reverse.mp hc)⟩
        · exact ih [] (by simp) (fun c hc => hcs c (List.mem_cons_of_mem _ hc)) w hw'
    · refine ih (c0 :: acc) ?_ (fun c hc => hcs c (List.mem_cons_of_mem _ hc)) w hw
      intro c hc
      rcases List.mem_cons.mp hc with rfl | hc'
      · exact hcs c (List.mem_cons_self _ _)
      · exact hacc c hc'

theorem splitWhitespace_sound (P : Char → Prop) (t : Str)
    (ht : ∀ c ∈ t, P c) :
    ∀ w ∈ splitWhitespace t, w ≠ [] ∧ ∀ c ∈ w, P c :=
  splitWSAux_sound P t [] (by simp) ht

/-- Every emitted token is the stem of a nonempty, uppercase-free word
that is not a stopword. -/
theorem tokenize_mem (stem : Str → Str) (text : Str) (tok : Str)
    (h : tok ∈ tokenize stem text) :
    ∃ w, tok = stem w ∧ w ≠ [] ∧ (∀ c ∈ w, c.isUpper = false) ∧
      w ∉ STOP_WORDS := by
  simp only [tokenize, List.mem_filterMap] at h
  obtain ⟨w, hw, hf⟩ := h
  by_cases hs : w ∈ STOP_WORDS
  · rw [if_pos hs] at hf
    exact absurd hf (by simp)
  · rw [if_neg hs] at hf
    obtain rfl : stem w = tok := by injection hf
    obtain ⟨hne, hP⟩ := splitWhitespace_sound (fun c => c.isUpper = false)
      (lowercase text)
      (by
        intro c hc
        simp only [lowercase, List.mem_map] at hc
        obtain ⟨c0, _, rfl⟩ := hc
        exact toLower_not_upper c0) w hw
    exact ⟨w, rfl, hne, hP, hs⟩

theorem buildFrom_empty_key (stem : Str → Str)
    (hne : ∀ w : Str, w ≠ [] → stem w ≠ []) :
    ∀ docs m, getPost m [] = none →
      getPost (buildFrom stem m docs) [] = none := by
  intro docs
  induction docs with
  | nil => intro m h; exact h
  | cons d ds ih =>
    intro m h
    simp only [buildFrom]
    apply ih
    rw [add]
    apply addLoop_none
    · intro hmem
      obtain ⟨w, hw, hwne, _, _⟩ := tokenize_mem stem d.text [] hmem
      exact hne w hwne hw.symm
    · exact h

/-- C10: every term emitted by `tokenize` is the stem of a nonempty
uppercase-free word whose pre-stem form is not in the stopword list;
assuming the external stemmer maps nonempty uppercase-free words to
nonempty uppercase-free stems (true of the Snowball English stemmer,
modelled from the spec), every emitted term is itself nonempty and
uppercase-free, and an index built by any `add` sequence never contains
the empty-string key. -/
theorem c10_tokenize_invariants (stem : Str → Str)
    (hne : ∀ w : Str, w ≠ [] → stem w ≠ [])
    (hlow : ∀ w : Str, (∀ c ∈ w, c.isUpper = false) →
      ∀ c ∈ stem w, c.isUpper = false) :
    (∀ text tok, tok ∈ tokenize stem text →
      tok ≠ [] ∧ (∀ c ∈ tok, c.isUpper = false) ∧
      ∃ w, tok = stem w ∧ w ≠ [] ∧ (∀ c ∈ w, c.isUpper = false) ∧
        w ∉ STOP_WORDS) ∧
    ∀ docs, getPost (buildFrom stem [] docs) [] = none := by
  constructor
  · intro text tok htok
    obtain ⟨w, rfl, hwne, hwlow, hws⟩ := tokenize_mem stem text tok htok
    exact ⟨hne w hwne, hlow w hwlow, w, rfl, hwne, hwlow, hws⟩
  · intro docs
    exact buildFrom_empty_key stem hne docs [] rfl

/-- Witness for C10 with the modelled stemmer: the token "quick" of
"The QUICK fox" is nonempty, uppercase-free and non-stopword-derived,
and the one-document index has no empty key. -/
theorem c10_tokenize_invariants_witness :
    ("quick".data ≠ [] ∧ (∀ c ∈ "quick".data, c.isUpper = false) ∧
      ∃ w, "quick".data = stemModel w ∧ w ≠ [] ∧
        (∀ c ∈ w, c.isUpper = false) ∧ w ∉ STOP_WORDS) ∧
    getPost (buildFrom stemModel []
      [⟨0, "".data, "".data, "The QUICK fox".data⟩]) [] = none := by
  have hne : ∀ w : Str, w ≠ [] → stemModel w ≠ [] := by
    intro w hw
    unfold stemModel
    split_ifs
    · decide
    · decide
    · exact hw
  have hlow : ∀ w : Str, (∀ c ∈ w, c.isUpper = false) →
      ∀ c ∈ stemModel w, c.isUpper = false := by
    intro w hw
    unfold stemModel
    split_ifs
    · decide
    · decide
    · exact hw
  have h := c10_tokenize_invariants stemModel hne hlow
  exact ⟨h.1 "The QUICK fox".data "quick".data (by decide),
    h.2 [⟨0, "".data, "".data, "The QUICK fox".data⟩]⟩

end Cercami
